import Mathlib

/-!
# Message queue: mock server and load-generating clients

A shallow embedding of the Go sources

* `src/MessageQueueTesting/main.go`: the mock server `messagesHandler` kept in the
  trailing block of the file, the payload generator `generateRandomString` and the
  duplicate check of `getMessages`;
* `src/testing/main.go`: the payload generator `generateRandomString`.

Conventions of the embedding.

* A `time.Time` is an integer number of nanoseconds; `t.After(u)` is `u < t`.
  Every call of `time.Now()` is a reading of its own: a request carries the
  sequence `clock` of the readings its handler call obtains, in order.
* A `*Message` is the position of the message in the slice `messageStore`; the
  slice is a `List Message`, the messages being mutated in place.
* Go `int`, `int64` and `time.Duration` are 64-bit: the product
  `time.Duration(lease) * time.Second` and `atomic.AddInt64` wrap around.
* `uuid.New().String()`, the JSON-decoded request body and the query string are
  inputs of the handler; the results of `seededRand.Intn` are inputs of the
  generators.
* A Go `string` is a `String`, its `len` the number of bytes of its UTF-8 encoding.
-/

namespace MessageQueueTesting

/-! ## Data model of the mock server -/

/-- The `Message` struct of the mock server. `LeaseExp` is in nanoseconds. -/
structure Message where
  ID : String
  Content : String
  LeasedBy : String
  LeaseExp : Int
deriving DecidableEq, Repr

/-- The zero value of `time.Time` (January 1, year 1, UTC) in Unix nanoseconds. -/
def zeroTime : Int := -62135596800000000000

/-- The package-level variables `messageStore` and `messageMap`. A pointer held by
the map is the position of the message in `messageStore`. -/
structure Server where
  messageStore : List Message
  messageMap : List (String × Nat)
deriving DecidableEq, Repr

/-- Two's complement wrap-around of a mathematical integer to `int64`. -/
def wrap64 (x : Int) : Int := (x + 9223372036854775808) % 18446744073709551616 - 9223372036854775808

/-- The constant `time.Second`, in nanoseconds. -/
def second : Int := 1000000000

/-- The expression `time.Duration(lease) * time.Second`. -/
def leaseDuration (lease : Int) : Int := wrap64 (lease * second)

/-- The availability test of the GET loop:
`msg.LeasedBy == "" || time.Now().After(msg.LeaseExp)`. -/
def available (now : Int) (msg : Message) : Bool :=
  msg.LeasedBy == "" || decide (msg.LeaseExp < now)

/-- The two assignments `msg.LeasedBy = clientID` and
`msg.LeaseExp = time.Now().Add(time.Duration(lease) * time.Second)`, where `t` is
the reading that this call of `time.Now()` returns. -/
def leaseTo (clientID : String) (lease t : Int) (msg : Message) : Message :=
  { msg with LeasedBy := clientID, LeaseExp := t + leaseDuration lease }

/-- The number of clock readings made once the test
`msg.LeasedBy == "" || time.Now().After(msg.LeaseExp)` has been evaluated, `n` being
the number made before it: the test reads the clock only when `LeasedBy` is not empty. -/
def afterTest (msg : Message) (n : Nat) : Nat := if msg.LeasedBy == "" then n else n + 1

/-- The loop `for _, msg := range messageStore` of the GET branch. `clock n` is the
reading of the n-th call of `time.Now()` made by this handler call. The arguments are
the part of the slice still to visit, the position of its head, `responseMessages`
so far and the number of clock readings made so far; the result is the visited part
after mutation and the final `responseMessages`. The availability test is evaluated at the reading
`clock n` (when `LeasedBy` is empty it is true without a reading), and the assignment
of `LeaseExp` makes the next reading. -/
def leaseLoop (clientID : String) (count lease : Int) (clock : Nat → Int) :
    List Message → Nat → List Nat → Nat → List Message × List Nat
  | [], _, resp, _ => ([], resp)
  | msg :: rest, i, resp, n =>
    if count ≤ (resp.length : Int) then (msg :: rest, resp)
    else if available (clock n) msg then
      let r := leaseLoop clientID count lease clock rest (i + 1) (resp ++ [i])
        (afterTest msg n + 1)
      (leaseTo clientID lease (clock (afterTest msg n)) msg :: r.1, r.2)
    else
      let r := leaseLoop clientID count lease clock rest (i + 1) resp (afterTest msg n)
      (msg :: r.1, r.2)

/-! ## Requests and responses -/

/-- The value of `r.Method`, as far as the handler distinguishes it. -/
inductive Method where
  | post
  | get
  | other
deriving DecidableEq, Repr

/-- What the handler reads of a request and of its environment: the method, the
result of decoding the JSON body into `reqBody.Message` (`none` when decoding
fails), the query parameters, the readings of `time.Now()` in the order in which the
handler call makes them, and the identifier drawn by `uuid.New()`. -/
structure Request where
  method : Method
  body : Option String
  query : List (String × String)
  clock : Nat → Int
  newID : String

/-- The call `r.URL.Query().Get(key)`: the first value of the key, or the empty string. -/
def queryGet (q : List (String × String)) (key : String) : String :=
  match q.find? (fun kv => kv.1 == key) with
  | some kv => kv.2
  | none => ""

/-- The largest `int` of a 64-bit platform. -/
def maxInt : Int := 9223372036854775807

/-- The smallest `int` of a 64-bit platform. -/
def minInt : Int := -9223372036854775808

/-- The largest `uint64`. -/
def maxUint64 : Nat := 18446744073709551615

/-- The three outcomes of the library function `strconv.ParseUint`. -/
inductive ParseResult where
  | ok (n : Nat)
  | syntaxError
  | rangeError
deriving DecidableEq, Repr

/-- The loop of `strconv.ParseUint(s, 10, 64)` over the bytes of a non-empty string,
`n` being the value read so far: a byte that is not a decimal digit is a syntax
error, and an overflow of `uint64` met before such a byte is a range error. -/
def parseUintLoop : List Char → Nat → ParseResult
  | [], n => ParseResult.ok n
  | c :: cs, n =>
    if !c.isDigit then ParseResult.syntaxError
    else if maxUint64 / 10 + 1 ≤ n then ParseResult.rangeError
    else if maxUint64 < n * 10 + (c.toNat - 48) then ParseResult.rangeError
    else parseUintLoop cs (n * 10 + (c.toNat - 48))

/-- The library function `strconv.ParseUint(s, 10, 64)`. -/
def parseUint (cs : List Char) : ParseResult :=
  if cs.isEmpty then ParseResult.syntaxError else parseUintLoop cs 0

/-- The library function `strconv.Atoi` on a 64-bit platform, with its error result
(true when the error is not nil): the empty string and a string with a byte that is
not a digit after the optional sign are syntax errors with value 0, unless the digits
before that byte overflow `uint64`; a value out of the range of `int` is a range error
with the nearest bound as value. -/
def atoiErr (s : String) : Int × Bool :=
  let cs := s.data
  if cs.isEmpty then (0, true)
  else
    let neg := cs.head? == some '-'
    let ds := if cs.head? == some '-' || cs.head? == some '+' then cs.tail else cs
    match parseUint ds with
    | ParseResult.syntaxError => (0, true)
    | ParseResult.rangeError => if neg then (minInt, true) else (maxInt, true)
    | ParseResult.ok un =>
      if !neg && 9223372036854775808 ≤ un then (maxInt, true)
      else if neg && 9223372036854775808 < un then (minInt, true)
      else (if neg then -(un : Int) else (un : Int), false)

/-- The use `n, _ := strconv.Atoi(s)`: the error is dropped. -/
def atoi (s : String) : Int := (atoiErr s).1

/-- The HTTP status codes used by the handler. -/
def statusOK : Nat := 200

/-- The constant `http.StatusCreated`. -/
def statusCreated : Nat := 201

/-- The constant `http.StatusBadRequest`. -/
def statusBadRequest : Nat := 400

/-- The constant `http.StatusMethodNotAllowed`. -/
def statusMethodNotAllowed : Nat := 405

/-- What the handler writes: the status code, the message encoded by the POST
branch, and `responseMessages` of the GET branch (positions in `messageStore`), which
the handler encodes as JSON after the loop. -/
structure Response where
  status : Nat
  created : Option Message
  responseMessages : List Nat
deriving DecidableEq, Repr

/-- The assignment `messageMap[key] = ptr`. -/
def mapSet (m : List (String × Nat)) (key : String) (ptr : Nat) : List (String × Nat) :=
  if m.any (fun kv => kv.1 == key) then
    m.map (fun kv => if kv.1 == key then (key, ptr) else kv)
  else m ++ [(key, ptr)]

/-- The function `messagesHandler` of the mock server in
`src/MessageQueueTesting/main.go`. -/
def messagesHandler (s : Server) (r : Request) : Server × Response :=
  match r.method with
  | Method.post =>
    match r.body with
    | none => (s, ⟨statusBadRequest, none, []⟩)
    | some message =>
      let msg : Message := ⟨r.newID, message, "", zeroTime⟩
      (⟨s.messageStore ++ [msg], mapSet s.messageMap msg.ID s.messageStore.length⟩,
        ⟨statusCreated, some msg, []⟩)
  | Method.get =>
    let countStr := queryGet r.query "count"
    let leaseStr := queryGet r.query "leaseExpiredAtInSeconds"
    let clientID := queryGet r.query "clientId"
    let count := atoi countStr
    let lease := atoi leaseStr
    let res := leaseLoop clientID count lease r.clock s.messageStore 0 [] 0
    (⟨res.1, s.messageMap⟩, ⟨statusOK, none, res.2⟩)
  | Method.other => (s, ⟨statusMethodNotAllowed, none, []⟩)

/-- The parameter `count` as the GET branch parses it. -/
def reqCount (r : Request) : Int := atoi (queryGet r.query "count")

/-- The parameter `leaseExpiredAtInSeconds` as the GET branch parses it. -/
def reqLease (r : Request) : Int := atoi (queryGet r.query "leaseExpiredAtInSeconds")

/-- The parameter `clientId` as the GET branch reads it. -/
def reqClient (r : Request) : String := queryGet r.query "clientId"

/-- The number of messages of a store that pass the availability test at `now`. -/
def availableCount (now : Int) (store : List Message) : Nat :=
  store.countP (available now)

/-- The store after a sequence of requests handled one after the other. -/
def run (s : Server) : List Request → Server
  | [] => s
  | r :: rs => run (messagesHandler s r).1 rs

/-- A clock that gives the reading `t` at every call. -/
def instant (t : Int) : Nat → Int := fun _ => t

/-- A clock that advances by one nanosecond from one call to the next, from `t` on. -/
def ticking (t : Int) : Nat → Int := fun n => t + (n : Int)

/-- A GET request with the three query parameters given as the strings sent. -/
def getRequest (clientID countStr leaseStr : String) (clock : Nat → Int) : Request :=
  ⟨Method.get, none,
    [("clientId", clientID), ("count", countStr), ("leaseExpiredAtInSeconds", leaseStr)],
    clock, ""⟩

/-- A POST request whose body decodes to the given message. -/
def postRequest (message newID : String) : Request :=
  ⟨Method.post, some message, [], instant 0, newID⟩

/-- A store of three messages that were never leased. -/
def threeMessages : Server :=
  ⟨[⟨"id-a", "A", "", zeroTime⟩, ⟨"id-b", "B", "", zeroTime⟩, ⟨"id-c", "C", "", zeroTime⟩],
    [("id-a", 0), ("id-b", 1), ("id-c", 2)]⟩

/-- A store of one message that was never leased. -/
def oneMessage : Server := ⟨[⟨"id-a", "A", "", zeroTime⟩], [("id-a", 0)]⟩

/-- A store of two messages held by W until time 10. -/
def twoHeld : Server :=
  ⟨[⟨"id-a", "A", "W", 10⟩, ⟨"id-b", "B", "W", 10⟩], [("id-a", 0), ("id-b", 1)]⟩

/-! ## The payload generator of the client -/

/-- The slice `phrases` of `generateRandomString`. -/
def phrases : List String := [
  "The quick brown fox jumps over the lazy dog.",
  "Microservices architecture enables scalable and resilient systems.",
  "Concurrent programming in Go is managed effectively with goroutines and channels.",
  "Continuous integration and continuous deployment pipelines automate software delivery.",
  "Observability is key to understanding complex distributed systems.",
  "REST APIs provide a flexible, lightweight way to integrate applications.",
  "Database indexing is crucial for improving query performance.",
  "The CAP theorem presents a fundamental choice between consistency, availability, and partition tolerance.",
  "Containerization with Docker and orchestration with Kubernetes have revolutionized application deployment.",
  "Writing clean, maintainable, and testable code is a hallmark of a professional software engineer.",
  "Agile methodologies help teams deliver value to their customers faster and with fewer headaches.",
  "A distributed ledger is a database that is consensually shared and synchronized across multiple sites, institutions, or geographies.",
  "The primary goal of a load balancer is to distribute traffic across multiple servers to ensure high availability and reliability."]

/-- The expression `phrases[seededRand.Intn(len(phrases))]` for a drawn index. -/
def phraseAt (i : Fin 13) : String := phrases.getD i.val ""

/-- The local `maxLength`. -/
def maxLength : Nat := 450

/-- The Go function `unicode.IsSpace`. -/
def isSpace (c : Char) : Bool :=
  let n := c.toNat
  (9 ≤ n && n ≤ 13) || n == 32 || n == 133 || n == 160 || n == 5760 ||
    (8192 ≤ n && n ≤ 8202) || n == 8232 || n == 8233 || n == 8239 || n == 8287 || n == 12288

/-- The Go function `strings.TrimSpace`: leading and trailing white space removed. -/
def trimSpace (s : String) : String :=
  ⟨((s.data.dropWhile isSpace).reverse.dropWhile isSpace).reverse⟩

/-- The loop `for builder.Len() < targetMinLength` of `generateRandomString`.
`draws i` is the result of the i-th call `seededRand.Intn(len(phrases))`; the
arguments are the number of iterations still allowed, the number of draws made and
the contents of `builder`. The result is `none` when the iterations allowed are used
up before the loop exits, and the contents of `builder` at the exit otherwise. -/
def phraseLoop (targetMinLength : Nat) (draws : Nat → Fin 13) : Nat → Nat → String → Option String
  | 0, _, _ => none
  | fuel + 1, i, builder =>
    if builder.utf8ByteSize < targetMinLength then
      let phrase := phraseAt (draws i)
      if builder.utf8ByteSize + phrase.utf8ByteSize + 1 > maxLength then
        if builder.utf8ByteSize = 0 then some builder
        else phraseLoop targetMinLength draws fuel (i + 1) builder
      else phraseLoop targetMinLength draws fuel (i + 1) ((builder ++ phrase) ++ " ")
    else some builder

/-- The function `generateRandomString` of `src/MessageQueueTesting/main.go`.
`r` is the result of `seededRand.Intn(201)`, `draws` the later results of
`seededRand.Intn(len(phrases))`, `fuel` a bound on the iterations of the loop. -/
def generateRandomString (fuel : Nat) (r : Fin 201) (draws : Nat → Fin 13) : Option String :=
  let targetMinLength := 150 + r.val
  match phraseLoop targetMinLength draws fuel 0 "" with
  | none => none
  | some builder =>
    let final := if builder.utf8ByteSize = 0 then builder ++ phrases.getD 0 "" else builder
    some (trimSpace final)

/-- A sequence of draws: the phrase of index 11 twice, the phrase of index 6, and the
phrase of index 11 from then on. -/
def stuckDraws (i : Nat) : Fin 13 := if i = 2 then 6 else 11

/-- The contents of `builder` after the first three draws of `stuckDraws`. -/
def stuckBuilder : String :=
  ((((("" ++ phraseAt 11) ++ " ") ++ phraseAt 11) ++ " ") ++ phraseAt 6) ++ " "

/-- A sequence of draws: the phrases of index 11, 11, 6, 11, 0, and the phrase of
index 11 from then on. -/
def redrawDraws (i : Nat) : Fin 13 := if i = 2 then 6 else if i = 4 then 0 else 11

/-- A sequence of draws that always gives the first phrase. -/
def firstPhraseDraws (_ : Nat) : Fin 13 := 0

/-! ## Duplicate detection of the client -/

/-- The struct `GetMessageResponse`. -/
structure GetMessageResponse where
  MessageID : String
  Message : String
deriving DecidableEq, Repr

/-- The call `receivedIDs.LoadOrStore(key, true)` on a `sync.Map` whose stored values
are all `true`, so that the map is the list of its keys: the map afterwards and the
result `loaded`. -/
def loadOrStore (receivedIDs : List String) (key : String) : List String × Bool :=
  if key ∈ receivedIDs then (receivedIDs, true) else (receivedIDs ++ [key], false)

/-- The loop `for _, msg := range messages` of `getMessages`: the key set and the
`int64` counter `duplicateCount` after the loop; `atomic.AddInt64(duplicateCount, 1)`
wraps around. -/
def checkDuplicates (receivedIDs : List String) (duplicateCount : Int) :
    List GetMessageResponse → List String × Int
  | [] => (receivedIDs, duplicateCount)
  | msg :: rest =>
    let r := loadOrStore receivedIDs msg.MessageID
    if r.2 then checkDuplicates r.1 (wrap64 (duplicateCount + 1)) rest
    else checkDuplicates r.1 duplicateCount rest

/-- In the words of the specification: the number of list positions whose id was
already in `S` or occurred earlier in the same list. -/
def repeatedPositions (S ids : List String) : Nat :=
  ((List.range ids.length).filter
    (fun i => decide (ids.getD i "" ∈ S) || decide (ids.getD i "" ∈ ids.take i))).length

end MessageQueueTesting

namespace Testing

/-- The constant `charset` of `generateRandomString`. -/
def charset : String := "abcdefghijklmnopqrstuvwxyzABCDEFGHIJKLMNOPQRSTUVWXYZ0123456789 "

/-- The expression `charset[seededRand.Intn(len(charset))]` for a drawn index; the
bytes of `charset` are ASCII characters. -/
def charsetAt (i : Fin 63) : Char := charset.data.getD i.val ' '

/-- The function `generateRandomString` of `src/testing/main.go`: `draws i` is the
result of the call `seededRand.Intn(len(charset))` that fills `b[i]`. -/
def generateRandomString (length : Nat) (draws : Nat → Fin 63) : String :=
  ⟨(List.range length).map (fun i => charsetAt (draws i))⟩

end Testing

/-! # Theorems -/

set_option maxRecDepth 1000000

namespace MessageQueueTesting

/-! ## The lease loop -/

theorem available_iff (now : Int) (m : Message) :
    available now m = true ↔ m.LeasedBy = "" ∨ m.LeaseExp < now := by
  simp [available]

theorem available_mono (t u : Int) (m : Message) (htu : t ≤ u)
    (h : available t m = true) : available u m = true := by
  rw [available_iff] at h ⊢
  rcases h with h | h
  · exact Or.inl h
  · exact Or.inr (by omega)

theorem leaseLoop_spec (c : String) (k d : Int) (clock : Nat → Int) :
    ∀ (l : List Message) (i : Nat) (resp : List Nat) (n : Nat),
      (leaseLoop c k d clock l i resp n).1.length = l.length ∧
      ∃ fresh : List Nat,
        (leaseLoop c k d clock l i resp n).2 = resp ++ fresh ∧
        fresh.length ≤ (k - (resp.length : Int)).toNat ∧
        (∀ x ∈ fresh, i ≤ x ∧ x < i + l.length) ∧
        ∀ (j : Nat) (m : Message), l[j]? = some m →
          (i + j ∈ fresh → ∃ a b : Nat, a ≤ b ∧ available (clock a) m = true ∧
            (leaseLoop c k d clock l i resp n).1[j]? = some (leaseTo c d (clock b) m)) ∧
          (i + j ∉ fresh → (leaseLoop c k d clock l i resp n).1[j]? = some m) := by
  intro l
  induction l with
  | nil =>
    intro i resp n
    refine ⟨rfl, [], ?_, ?_, ?_, ?_⟩ <;> simp [leaseLoop]
  | cons a rest ih =>
    intro i resp n
    by_cases hk : k ≤ (resp.length : Int)
    · refine ⟨by simp [leaseLoop, hk], [], by simp [leaseLoop, hk], by simp, by simp, ?_⟩
      intro j m hj
      simp [leaseLoop, hk, hj]
    · by_cases ha : available (clock n) a = true
      · obtain ⟨hlen, fresh, hresp, hfl, hrange, hpt⟩ :=
          ih (i + 1) (resp ++ [i]) ((afterTest a n) + 1)
        refine ⟨by simp [leaseLoop, hk, ha, hlen], i :: fresh, ?_, ?_, ?_, ?_⟩
        · simp [leaseLoop, hk, ha, hresp]
        · simp only [List.length_append, List.length_singleton, List.length_cons,
            List.length_nil] at hfl ⊢
          push_cast at hfl
          omega
        · intro x hx
          rcases List.mem_cons.1 hx with rfl | hx
          · simp
          · have := hrange x hx
            simp only [List.length_cons]
            omega
        · intro j m hj
          cases j with
          | zero =>
            simp only [List.getElem?_cons_zero, Option.some.injEq] at hj
            subst hj
            refine ⟨fun _ => ⟨n, afterTest a n, ?_, ha, ?_⟩, ?_⟩
            · unfold afterTest
              split <;> omega
            · simp [leaseLoop, hk, ha]
            · intro hni
              simp at hni
          | succ j =>
            simp only [List.getElem?_cons_succ] at hj
            have h1 := hpt j m hj
            have hne : ¬ (i + 1 + j = i) := by omega
            have heq : i + (j + 1) = i + 1 + j := by omega
            simp only [leaseLoop, hk, ha, if_true, if_false, List.getElem?_cons_succ,
              List.mem_cons, heq, hne, false_or]
            exact h1
      · obtain ⟨hlen, fresh, hresp, hfl, hrange, hpt⟩ :=
          ih (i + 1) resp (afterTest a n)
        have ha2 : available (clock n) a = false := by simpa using ha
        refine ⟨by simp [leaseLoop, hk, ha2, hlen], fresh, ?_, hfl, ?_, ?_⟩
        · simp [leaseLoop, hk, ha2, hresp]
        · intro x hx
          have := hrange x hx
          simp only [List.length_cons]
          omega
        · intro j m hj
          cases j with
          | zero =>
            simp only [List.getElem?_cons_zero, Option.some.injEq] at hj
            subst hj
            have hni : i ∉ fresh := by
              intro hmem
              have := hrange _ hmem
              omega
            simp [leaseLoop, hk, ha2, hni]
          | succ j =>
            simp only [List.getElem?_cons_succ] at hj
            have h1 := hpt j m hj
            have heq : i + (j + 1) = i + 1 + j := by omega
            simp only [leaseLoop, hk, ha2, if_false, List.getElem?_cons_succ, heq]
            simpa using h1

theorem leaseLoop_count (c : String) (k d : Int) (clock : Nat → Int) (t : Int) :
    ∀ (l : List Message) (i : Nat) (resp : List Nat) (n : Nat),
      (∀ m ∈ l, ∀ q : Nat, available (clock q) m = available t m) →
      (leaseLoop c k d clock l i resp n).2.length =
        resp.length + min (k - (resp.length : Int)).toNat (availableCount t l) := by
  intro l
  induction l with
  | nil => intro i resp n _; simp [leaseLoop, availableCount]
  | cons a rest ih =>
    intro i resp n hst
    have hrest : ∀ m ∈ rest, ∀ q : Nat, available (clock q) m = available t m :=
      fun m hm => hst m (List.mem_cons_of_mem _ hm)
    have hhead := hst a (List.mem_cons_self _ _) n
    by_cases hk : k ≤ (resp.length : Int)
    · have : (k - (resp.length : Int)).toNat = 0 := by omega
      simp [leaseLoop, hk, this]
    · by_cases ha : available (clock n) a = true
      · have hat : available t a = true := by rw [← hhead]; exact ha
        have := ih (i + 1) (resp ++ [i]) ((afterTest a n) + 1) hrest
        simp only [leaseLoop, hk, ha, if_true, if_false]
        rw [this]
        simp only [availableCount, List.countP_cons, hat, if_true, List.length_append,
          List.length_singleton]
        push_cast
        omega
      · have ha2 : available (clock n) a = false := by simpa using ha
        have hat : available t a = false := by rw [← hhead]; exact ha2
        have := ih (i + 1) resp (afterTest a n) hrest
        simp only [leaseLoop, hk, ha2, if_false, Bool.false_eq_true]
        rw [this]
        simp [availableCount, List.countP_cons, hat]

theorem leaseLoop_all (c : String) (k d : Int) (clock : Nat → Int) (T : Int)
    (hT : ∀ q : Nat, clock q ≤ T) :
    ∀ (l : List Message) (i : Nat) (resp : List Nat) (n : Nat),
      (availableCount T l : Int) ≤ k - (resp.length : Int) →
      ∀ (j : Nat) (m : Message), l[j]? = some m →
        (∀ q : Nat, available (clock q) m = true) →
        i + j ∈ (leaseLoop c k d clock l i resp n).2 := by
  intro l
  induction l with
  | nil => intro i resp n _ j m hj; simp at hj
  | cons a rest ih =>
    intro i resp n hk j m hj hav
    have hmT : available T m = true := available_mono _ _ m (hT 0) (hav 0)
    have hpos : 0 < availableCount T (a :: rest) :=
      List.countP_pos_iff.2 ⟨m, List.getElem?_mem hj, hmT⟩
    have hk1 : ¬ k ≤ (resp.length : Int) := by omega
    by_cases ha : available (clock n) a = true
    · have haT : available T a = true := available_mono _ _ a (hT n) ha
      have hk2 : (availableCount T rest : Int) ≤ k - ((resp ++ [i]).length : Int) := by
        simp only [availableCount, List.countP_cons, haT, if_true, List.length_append,
          List.length_singleton] at hk ⊢
        push_cast at hk ⊢
        omega
      cases j with
      | zero =>
        obtain ⟨_, fresh, hresp, _, _, _⟩ := leaseLoop_spec c k d clock rest (i + 1)
          (resp ++ [i]) ((afterTest a n) + 1)
        simp [leaseLoop, hk1, ha, hresp]
      | succ j =>
        simp only [List.getElem?_cons_succ] at hj
        have := ih (i + 1) (resp ++ [i]) ((afterTest a n) + 1)
          hk2 j m hj hav
        have heq : i + (j + 1) = i + 1 + j := by omega
        simpa [leaseLoop, hk1, ha, heq] using this
    · have ha2 : available (clock n) a = false := by simpa using ha
      cases j with
      | zero =>
        simp only [List.getElem?_cons_zero, Option.some.injEq] at hj
        subst hj
        rw [hav n] at ha2
        exact absurd ha2 (by simp)
      | succ j =>
        simp only [List.getElem?_cons_succ] at hj
        have hle : availableCount T rest ≤ availableCount T (a :: rest) := by
          simp only [availableCount, List.countP_cons]
          omega
        have hk2 : (availableCount T rest : Int) ≤ k - (resp.length : Int) := by omega
        have := ih (i + 1) resp (afterTest a n) hk2 j m hj hav
        have heq : i + (j + 1) = i + 1 + j := by omega
        simpa [leaseLoop, hk1, ha2, heq] using this

theorem leaseLoop_some (c : String) (k d : Int) (clock : Nat → Int) :
    ∀ (l : List Message) (i : Nat) (resp : List Nat) (n : Nat),
      (resp.length : Int) < k → (∃ m ∈ l, m.LeasedBy = "") →
      resp.length < (leaseLoop c k d clock l i resp n).2.length := by
  intro l
  induction l with
  | nil => intro i resp n _ h; simp at h
  | cons a rest ih =>
    intro i resp n hk hex
    have hk1 : ¬ k ≤ (resp.length : Int) := by omega
    by_cases ha : available (clock n) a = true
    · obtain ⟨_, fresh, hresp, _, _, _⟩ := leaseLoop_spec c k d clock rest (i + 1)
        (resp ++ [i]) ((afterTest a n) + 1)
      simp only [leaseLoop, hk1, ha, if_true, if_false, hresp, List.length_append,
        List.length_singleton]
      omega
    · have ha2 : available (clock n) a = false := by simpa using ha
      obtain ⟨m, hm, hempty⟩ := hex
      have hrest : ∃ m ∈ rest, m.LeasedBy = "" := by
        rcases List.mem_cons.1 hm with rfl | hm
        · have : available (clock n) m = true := (available_iff _ _).2 (Or.inl hempty)
          rw [this] at ha2
          exact absurd ha2 (by simp)
        · exact ⟨m, hm, hempty⟩
      have := ih (i + 1) resp (afterTest a n) hk hrest
      simpa [leaseLoop, hk1, ha2] using this

theorem handler_get (s : Server) (r : Request) (hget : r.method = Method.get) :
    messagesHandler s r =
      (⟨(leaseLoop (reqClient r) (reqCount r) (reqLease r) r.clock s.messageStore 0 [] 0).1,
          s.messageMap⟩,
        ⟨statusOK, none,
          (leaseLoop (reqClient r) (reqCount r) (reqLease r) r.clock s.messageStore 0 [] 0).2⟩) := by
  simp [messagesHandler, hget, reqClient, reqCount, reqLease]

theorem get_spec (s : Server) (r : Request) (hget : r.method = Method.get) :
    (messagesHandler s r).2.status = statusOK ∧
    (messagesHandler s r).1.messageMap = s.messageMap ∧
    (messagesHandler s r).1.messageStore.length = s.messageStore.length ∧
    (messagesHandler s r).2.responseMessages.length ≤ (reqCount r).toNat ∧
    (∀ j ∈ (messagesHandler s r).2.responseMessages, j < s.messageStore.length) ∧
    ∀ (j : Nat) (m : Message), s.messageStore[j]? = some m →
      (j ∈ (messagesHandler s r).2.responseMessages →
        ∃ a b : Nat, a ≤ b ∧ available (r.clock a) m = true ∧
          (messagesHandler s r).1.messageStore[j]? =
            some (leaseTo (reqClient r) (reqLease r) (r.clock b) m)) ∧
      (j ∉ (messagesHandler s r).2.responseMessages →
        (messagesHandler s r).1.messageStore[j]? = some m) := by
  obtain ⟨hlen, fresh, hresp, hfl, hrange, hpt⟩ :=
    leaseLoop_spec (reqClient r) (reqCount r) (reqLease r) r.clock s.messageStore 0 [] 0
  rw [handler_get s r hget]
  simp only [List.nil_append] at hresp
  simp only [hresp, hlen, true_and]
  refine ⟨?_, ?_, ?_⟩
  · simpa using hfl
  · intro j hj
    have := hrange j hj
    omega
  · intro j m hj
    simpa using hpt j m hj

theorem get_all (s : Server) (r : Request) (T : Int) (hget : r.method = Method.get)
    (hT : ∀ q : Nat, r.clock q ≤ T)
    (hk : (availableCount T s.messageStore : Int) ≤ reqCount r)
    (j : Nat) (m : Message) (hj : s.messageStore[j]? = some m)
    (hav : ∀ q : Nat, available (r.clock q) m = true) :
    j ∈ (messagesHandler s r).2.responseMessages := by
  rw [handler_get s r hget]
  have := leaseLoop_all (reqClient r) (reqCount r) (reqLease r) r.clock T hT s.messageStore 0 [] 0
    (by simpa using hk) j m hj hav
  simpa using this

theorem wrap64_of_range (x : Int) (h1 : -9223372036854775808 ≤ x) (h2 : x ≤ 9223372036854775807) :
    wrap64 x = x := by
  unfold wrap64
  omega

theorem leaseDuration_of_range (d : Int) (h1 : -9223372036 ≤ d) (h2 : d ≤ 9223372036) :
    leaseDuration d = d * second := by
  unfold leaseDuration second
  apply wrap64_of_range <;> omega

theorem handler_keeps_leased (s : Server) (r : Request) (j : Nat) (m : Message)
    (hj : s.messageStore[j]? = some m) (hna : ∀ q : Nat, available (r.clock q) m = false) :
    (messagesHandler s r).1.messageStore[j]? = some m ∧
      j ∉ (messagesHandler s r).2.responseMessages := by
  cases hm : r.method with
  | get =>
    obtain ⟨_, _, _, _, _, hpt⟩ := get_spec s r hm
    have h := hpt j m hj
    have hnot : j ∉ (messagesHandler s r).2.responseMessages := by
      intro hmem
      obtain ⟨a, _, _, hav, _⟩ := h.1 hmem
      rw [hna a] at hav
      exact absurd hav (by simp)
    exact ⟨h.2 hnot, hnot⟩
  | post =>
    cases hb : r.body with
    | none => simp [messagesHandler, hm, hb, hj]
    | some p =>
      have hlt : j < s.messageStore.length := by
        rcases List.getElem?_eq_some_iff.1 hj with ⟨h, _⟩
        exact h
      simp [messagesHandler, hm, hb, List.getElem?_append_left hlt, hj]
  | other => simp [messagesHandler, hm, hj]

theorem run_keeps_leased (rs : List Request) :
    ∀ (s : Server) (j : Nat) (m : Message), s.messageStore[j]? = some m →
      (∀ r ∈ rs, ∀ q : Nat, available (r.clock q) m = false) →
      (run s rs).messageStore[j]? = some m := by
  induction rs with
  | nil => intro s j m hj _; simpa [run] using hj
  | cons r rs ih =>
    intro s j m hj hall
    simp only [run]
    apply ih
    · exact (handler_keeps_leased s r j m hj (hall r (by simp))).1
    · intro r' hr'
      exact hall r' (by simp [hr'])

/-! ## Claims about the mock server -/

/-- C1, as stated, fails. First part: a message handed to the client with the empty
id at time 0 for 5 seconds is handed out again to client Y one nanosecond later, so
the claim does not hold for every pair of client ids. Second part: with the non-empty
client id X and a lease of 9223372037 seconds, whose nanosecond count wraps around in
`int64`, the message is handed out again as well. -/
theorem exclusive_lease_counterexample :
    ((0 : Int) < reqLease (getRequest "" "1" "5" (instant 0)) ∧
      (0 : Int) ≤ 1 ∧
      (1 : Int) < 0 + reqLease (getRequest "" "1" "5" (instant 0)) * second ∧
      0 ∈ (messagesHandler oneMessage (getRequest "" "1" "5" (instant 0))).2.responseMessages ∧
      0 ∈ (messagesHandler (messagesHandler oneMessage (getRequest "" "1" "5" (instant 0))).1
        (getRequest "Y" "1" "5" (instant 1))).2.responseMessages) ∧
    ((0 : Int) < reqLease (getRequest "X" "1" "9223372037" (instant 0)) ∧
      (0 : Int) ≤ 1 ∧
      (1 : Int) < 0 + reqLease (getRequest "X" "1" "9223372037" (instant 0)) * second ∧
      0 ∈ (messagesHandler oneMessage
        (getRequest "X" "1" "9223372037" (instant 0))).2.responseMessages ∧
      0 ∈ (messagesHandler
        (messagesHandler oneMessage (getRequest "X" "1" "9223372037" (instant 0))).1
        (getRequest "Y" "1" "5" (instant 1))).2.responseMessages) := by
  decide

/-- C1, amended: for every store, every non-empty client id X and every client id Y,
every lease of d seconds with 0 < d ≤ 9223372036 and all times t0 ≤ t1 < t0 + d, a
message returned by the GET handler to X at time t0 is not returned by a later GET
call from Y at time t1, whatever requests are handled in between at times before
t0 + d. A call at a time may read the clock several times: every reading of the call
of X is at or after t0, every reading of the call of Y is in t0 ≤ t1 < t0 + d, and
every reading of the requests in between is before t0 + d. -/
theorem exclusive_lease (s : Server) (rX rY : Request) (between : List Request) (j : Nat)
    (t0 : Int)
    (hX : rX.method = Method.get) (hY : rY.method = Method.get)
    (hclient : reqClient rX ≠ "")
    (hd0 : 0 < reqLease rX) (hd1 : reqLease rX ≤ 9223372036)
    (hstart : ∀ q : Nat, t0 ≤ rX.clock q)
    (hbetween : ∀ r ∈ between, ∀ q : Nat, r.clock q < t0 + reqLease rX * second)
    (ht0 : ∀ q : Nat, t0 ≤ rY.clock q)
    (ht1 : ∀ q : Nat, rY.clock q < t0 + reqLease rX * second)
    (hj : j ∈ (messagesHandler s rX).2.responseMessages) :
    j ∉ (messagesHandler (run (messagesHandler s rX).1 between) rY).2.responseMessages := by
  obtain ⟨_, _, _, _, hrange, hpt⟩ := get_spec s rX hX
  have hlt := hrange j hj
  have hsome : s.messageStore[j]? = some (s.messageStore[j]) := List.getElem?_eq_getElem hlt
  obtain ⟨a, b, _, _, hstored⟩ := (hpt j _ hsome).1 hj
  have hdur := leaseDuration_of_range (reqLease rX) (by omega) hd1
  have hb := hstart b
  have hna : ∀ t : Int, t < t0 + reqLease rX * second →
      available t (leaseTo (reqClient rX) (reqLease rX) (rX.clock b) (s.messageStore[j])) =
        false := by
    intro t ht
    simp only [available, leaseTo, hdur, Bool.or_eq_false_iff, beq_eq_false_iff_ne, ne_eq,
      decide_eq_false_iff_not]
    exact ⟨hclient, by omega⟩
  have hkept := run_keeps_leased between (messagesHandler s rX).1 j _ hstored
    (fun r hr q => hna (r.clock q) (hbetween r hr q))
  exact (handler_keeps_leased _ rY j _ hkept (fun q => hna (rY.clock q) (ht1 q))).2

/-- Witness of C1 (amended): two of three messages are leased to X from time 0 on for
5 seconds by a call whose clock advances; after a POST, a pull by Y one second later
does not return the first of them. -/
theorem exclusive_lease_witness :
    0 ∈ (messagesHandler threeMessages (getRequest "X" "2" "5" (ticking 0))).2.responseMessages ∧
    0 ∉ (messagesHandler
        (run (messagesHandler threeMessages (getRequest "X" "2" "5" (ticking 0))).1
          [postRequest "D" "id-d"])
        (getRequest "Y" "3" "5" (instant 1000000000))).2.responseMessages :=
  ⟨by decide,
    exclusive_lease threeMessages (getRequest "X" "2" "5" (ticking 0))
      (getRequest "Y" "3" "5" (instant 1000000000)) [postRequest "D" "id-d"] 0 0 rfl rfl
      (by decide) (by decide) (by decide)
      (by intro q; show (0 : Int) ≤ 0 + (q : Int); omega)
      (by
        intro r hr q
        rw [List.mem_singleton.1 hr]
        show (0 : Int) < 0 + reqLease (getRequest "X" "2" "5" (ticking 0)) * second
        decide)
      (by intro q; show (0 : Int) ≤ 1000000000; decide)
      (by
        intro q
        show (1000000000 : Int) < 0 + reqLease (getRequest "X" "2" "5" (ticking 0)) * second
        decide)
      (by decide)⟩

/-- C2, as stated, fails. First part: the message leased to X at time 0 for 5 seconds
is stored with expiry 5 seconds and does not pass the availability test at time
5 seconds exactly, and a pull by Y at that time returns nothing. Second part: with a
lease of -9223372037 seconds, whose nanosecond count wraps around in `int64`, the
stored message does not pass the test at time 1, later than t0 + d. Third part: a
message held by X whose expiry is now is not Available, so the availability test is
not the test that there is no holder or that the lease expiry is at most now. -/
theorem expiry_resurfacing_counterexample :
    ((messagesHandler oneMessage (getRequest "X" "1" "5" (instant 0))).2.responseMessages = [0] ∧
      (messagesHandler oneMessage (getRequest "X" "1" "5" (instant 0))).1.messageStore =
        [⟨"id-a", "A", "X", 5000000000⟩] ∧
      0 + reqLease (getRequest "X" "1" "5" (instant 0)) * second ≤ 5000000000 ∧
      available 5000000000 ⟨"id-a", "A", "X", 5000000000⟩ = false ∧
      (messagesHandler (messagesHandler oneMessage (getRequest "X" "1" "5" (instant 0))).1
        (getRequest "Y" "1" "5" (instant 5000000000))).2.responseMessages = []) ∧
    ((messagesHandler oneMessage
        (getRequest "X" "1" "-9223372037" (instant 0))).2.responseMessages = [0] ∧
      (messagesHandler oneMessage (getRequest "X" "1" "-9223372037" (instant 0))).1.messageStore =
        [⟨"id-a", "A", "X", 9223372036709551616⟩] ∧
      0 + reqLease (getRequest "X" "1" "-9223372037" (instant 0)) * second < 1 ∧
      available 1 ⟨"id-a", "A", "X", 9223372036709551616⟩ = false) ∧
    ((⟨"id-a", "A", "X", 5⟩ : Message).LeaseExp ≤ 5 ∧
      available 5 ⟨"id-a", "A", "X", 5⟩ = false) := by
  decide

/-- C2, amended: for every message leased by the GET handler at time t0 with a lease of
d seconds, where -9223372036 ≤ d ≤ 9223372036, the stored expiry is t0 + d, and at
every time t > t0 + d (strictly later) the availability test treats the message as
Available, for every client: a pull by any client id whose count covers the Available
messages returns it. A message is Available exactly when it has no holder or
leaseExpiry < now. A call may read the clock several times: the stored expiry is a
reading of the leasing call plus d, at most t0 + d when t0 bounds its readings, and
the later pull has all its readings after t0 + d. -/
theorem expiry_resurfacing (s : Server) (rX : Request) (j : Nat) (stored : Message)
    (t0 : Int)
    (hX : rX.method = Method.get)
    (hd0 : -9223372036 ≤ reqLease rX) (hd1 : reqLease rX ≤ 9223372036)
    (hend : ∀ q : Nat, rX.clock q ≤ t0)
    (hj : j ∈ (messagesHandler s rX).2.responseMessages)
    (hstored : (messagesHandler s rX).1.messageStore[j]? = some stored) :
    (∃ b : Nat, stored.LeaseExp = rX.clock b + reqLease rX * second) ∧
    ((∀ q : Nat, rX.clock q = t0) → stored.LeaseExp = t0 + reqLease rX * second) ∧
    (∀ t : Int, t0 + reqLease rX * second < t → available t stored = true) ∧
    (∀ (rY : Request) (T : Int), rY.method = Method.get →
      (∀ q : Nat, t0 + reqLease rX * second < rY.clock q) → (∀ q : Nat, rY.clock q ≤ T) →
      (availableCount T (messagesHandler s rX).1.messageStore : Int) ≤ reqCount rY →
      j ∈ (messagesHandler (messagesHandler s rX).1 rY).2.responseMessages) ∧
    (∀ (now : Int) (m : Message),
      available now m = true ↔ (m.LeasedBy = "" ∨ m.LeaseExp < now)) := by
  obtain ⟨_, _, _, _, hrange, hpt⟩ := get_spec s rX hX
  have hlt := hrange j hj
  have hsome : s.messageStore[j]? = some (s.messageStore[j]) := List.getElem?_eq_getElem hlt
  obtain ⟨a, b, _, _, h1⟩ := (hpt j _ hsome).1 hj
  rw [hstored] at h1
  have hdur := leaseDuration_of_range (reqLease rX) hd0 hd1
  have hexp : stored.LeaseExp = rX.clock b + reqLease rX * second := by
    have := Option.some.inj h1
    rw [this]
    simp [leaseTo, hdur]
  have hav : ∀ t : Int, t0 + reqLease rX * second < t → available t stored = true := by
    intro t ht
    rw [available_iff]
    right
    have := hend b
    omega
  refine ⟨⟨b, hexp⟩, ?_, hav, ?_, available_iff⟩
  · intro hconst
    rw [hexp, hconst b]
  · intro rY T hY hafter hT hk
    exact get_all _ rY T hY hT hk j stored hstored (fun q => hav _ (hafter q))

/-- Witness of C2 (amended): the first of three messages, leased to X at time 0 for 5
seconds, passes the availability test one nanosecond after 5 seconds. -/
theorem expiry_resurfacing_witness :
    0 ∈ (messagesHandler threeMessages (getRequest "X" "2" "5" (instant 0))).2.responseMessages ∧
    (messagesHandler threeMessages (getRequest "X" "2" "5" (instant 0))).1.messageStore[0]? =
      some ⟨"id-a", "A", "X", 5000000000⟩ ∧
    available 5000000001 ⟨"id-a", "A", "X", 5000000000⟩ = true :=
  ⟨by decide, by decide,
    (expiry_resurfacing threeMessages (getRequest "X" "2" "5" (instant 0)) 0
      ⟨"id-a", "A", "X", 5000000000⟩ 0 rfl (by decide) (by decide) (by intro q; show (0 : Int) ≤ 0; decide)
      (by decide) (by decide)).2.2.1 5000000001 (by decide)⟩

/-- C3, as stated, fails: the loop reads the clock afresh for each message. On a store
of two messages held until time 10, a pull of 2 whose readings are 10, 11, 12 tests
the first message at 10 (still leased) and the second at 11 (expired): it returns one
message, while the number of Available messages is 0 at time 10 and 2 at every later
time, so min(k, a) is 1 at no time. -/
theorem pull_returns_min_counterexample :
    reqCount (getRequest "X" "2" "5" (ticking 10)) = 2 ∧
    (messagesHandler twoHeld (getRequest "X" "2" "5" (ticking 10))).2.responseMessages = [1] ∧
    availableCount 10 twoHeld.messageStore = 0 ∧
    availableCount 11 twoHeld.messageStore = 2 ∧
    availableCount 12 twoHeld.messageStore = 2 ∧
    (∀ t : Int, min 2 (availableCount t twoHeld.messageStore) ≠ 1) := by
  refine ⟨by decide, by decide, by decide, by decide, by decide, ?_⟩
  intro t
  by_cases ht : (10 : Int) < t
  · have : availableCount t twoHeld.messageStore = 2 := by
      simp [availableCount, twoHeld, available, ht]
    rw [this]
    decide
  · have : availableCount t twoHeld.messageStore = 0 := by
      simp [availableCount, twoHeld, available, ht]
    rw [this]
    decide

/-- C3, amended: for every store and every requested count k ≥ 0, a GET call answers
with status 200 and never returns more than k messages. When every stored message
passes the availability test at every clock reading of the call exactly if it passes
it at time now (no lease expires while the loop runs, as when the call reads the
clock at now only), the call returns exactly min(k, a) messages, a being the number of
messages Available at now; hence exactly k when at least k are Available, and the
empty list, not an error, when none are. -/
theorem pull_returns_min (s : Server) (r : Request) (k : Nat)
    (hget : r.method = Method.get) (hk : reqCount r = (k : Int)) :
    (messagesHandler s r).2.status = statusOK ∧
    (messagesHandler s r).2.responseMessages.length ≤ k ∧
    ∀ now : Int,
      (∀ m ∈ s.messageStore, ∀ q : Nat, available (r.clock q) m = available now m) →
      (messagesHandler s r).2.responseMessages.length =
        min k (availableCount now s.messageStore) ∧
      (k ≤ availableCount now s.messageStore →
        (messagesHandler s r).2.responseMessages.length = k) ∧
      (availableCount now s.messageStore = 0 →
        (messagesHandler s r).2.responseMessages = []) := by
  obtain ⟨hst, _, _, hle, _, _⟩ := get_spec s r hget
  rw [hk, Int.toNat_ofNat] at hle
  refine ⟨hst, hle, ?_⟩
  intro now hstable
  have hlen : (messagesHandler s r).2.responseMessages.length =
      min k (availableCount now s.messageStore) := by
    rw [handler_get s r hget]
    have := leaseLoop_count (reqClient r) (reqCount r) (reqLease r) r.clock now
      s.messageStore 0 [] 0 hstable
    simpa [hk] using this
  refine ⟨hlen, ?_, ?_⟩
  · intro h; rw [hlen]; exact Nat.min_eq_left h
  · intro h
    apply List.eq_nil_of_length_eq_zero
    rw [hlen, h]
    exact Nat.min_eq_right (Nat.zero_le _)

/-- Witness of C3 (amended): a pull of 2, with an advancing clock, on a store of three
messages that were never leased. -/
theorem pull_returns_min_witness :
    (getRequest "X" "2" "5" (ticking 0)).method = Method.get ∧
    reqCount (getRequest "X" "2" "5" (ticking 0)) = ((2 : Nat) : Int) ∧
    (messagesHandler threeMessages (getRequest "X" "2" "5" (ticking 0))).2.responseMessages.length =
      min 2 (availableCount 0 threeMessages.messageStore) :=
  ⟨rfl, by decide,
    ((pull_returns_min threeMessages (getRequest "X" "2" "5" (ticking 0)) 2 rfl
      (by decide)).2.2 0 (by
        intro m hm q
        have hempty : m.LeasedBy = "" := by
          simp only [threeMessages, List.mem_cons, List.mem_singleton, List.not_mem_nil,
            or_false] at hm
          rcases hm with rfl | rfl | rfl <;> rfl
        simp [available, hempty])).1⟩

/-- C4, as stated, fails. First part: the loop reads the clock afresh at each
assignment, so a pull of 2 for 5 seconds whose readings are 0, 1, ... stores the
expiry 5000000000 for the first message and 5000000001 for the second: no single
time now gives now + d for both. Second part: for a lease of 9223372037 seconds the
product `time.Duration(lease) * time.Second` wraps around in `int64`, and the
returned message is stored with an expiry 9223372036709551616 nanoseconds before now,
not now + 9223372037 seconds. -/
theorem pull_effect_counterexample :
    ((messagesHandler threeMessages (getRequest "X" "2" "5" (ticking 0))).2.responseMessages =
        [0, 1] ∧
      (messagesHandler threeMessages (getRequest "X" "2" "5" (ticking 0))).1.messageStore =
        [⟨"id-a", "A", "X", 5000000000⟩, ⟨"id-b", "B", "X", 5000000001⟩,
          ⟨"id-c", "C", "", zeroTime⟩] ∧
      (5000000000 : Int) ≠ 5000000001) ∧
    (reqLease (getRequest "X" "1" "9223372037" (instant 0)) = 9223372037 ∧
      (messagesHandler oneMessage
        (getRequest "X" "1" "9223372037" (instant 0))).2.responseMessages = [0] ∧
      (messagesHandler oneMessage (getRequest "X" "1" "9223372037" (instant 0))).1.messageStore =
        [⟨"id-a", "A", "X", -9223372036709551616⟩] ∧
      (-9223372036709551616 : Int) ≠ 0 + 9223372037 * second) := by
  decide

/-- C4, amended: for every store, client id c, count k and lease of d seconds, after
a GET call no message is added or removed (the slice keeps its length and the map is
untouched), the id and content of every message are unchanged, every message that
was not returned is unchanged, and every returned message passed the availability
test at a clock reading of the call and is stored with LeasedBy = c and with
LeaseExp = t + D, where t is the reading of the call made at its own assignment, not
earlier than the reading of its test, and D is the 64-bit product
`time.Duration(d) * time.Second`. Whenever -9223372036 ≤ d ≤ 9223372036 this is
LeaseExp = t + d seconds, and LeaseExp = now + d seconds when every reading of the
call is now. -/
theorem pull_effect (s : Server) (r : Request) (hget : r.method = Method.get) :
    (messagesHandler s r).1.messageMap = s.messageMap ∧
    (messagesHandler s r).1.messageStore.length = s.messageStore.length ∧
    (∀ j ∈ (messagesHandler s r).2.responseMessages, j < s.messageStore.length) ∧
    ∀ (j : Nat) (m : Message), s.messageStore[j]? = some m →
      ∃ stored : Message, (messagesHandler s r).1.messageStore[j]? = some stored ∧
        stored.ID = m.ID ∧ stored.Content = m.Content ∧
        (j ∈ (messagesHandler s r).2.responseMessages →
          stored.LeasedBy = reqClient r ∧
          ∃ a b : Nat, a ≤ b ∧ available (r.clock a) m = true ∧
            stored.LeaseExp = r.clock b + leaseDuration (reqLease r) ∧
            (-9223372036 ≤ reqLease r → reqLease r ≤ 9223372036 →
              stored.LeaseExp = r.clock b + reqLease r * second ∧
              ∀ now : Int, (∀ q : Nat, r.clock q = now) →
                stored.LeaseExp = now + reqLease r * second)) ∧
        (j ∉ (messagesHandler s r).2.responseMessages → stored = m) := by
  obtain ⟨_, hmap, hlen, _, hrange, hpt⟩ := get_spec s r hget
  refine ⟨hmap, hlen, hrange, ?_⟩
  intro j m hj
  obtain ⟨hin, hout⟩ := hpt j m hj
  by_cases hmem : j ∈ (messagesHandler s r).2.responseMessages
  · obtain ⟨a, b, hab, hav, hst⟩ := hin hmem
    refine ⟨_, hst, rfl, rfl, ?_, fun h => absurd hmem h⟩
    intro _
    refine ⟨rfl, a, b, hab, hav, rfl, ?_⟩
    intro h1 h2
    have hdur := leaseDuration_of_range _ h1 h2
    refine ⟨by simp [leaseTo, hdur], ?_⟩
    intro now hnow
    simp [leaseTo, hdur, hnow b]
  · exact ⟨m, hout hmem, rfl, rfl, fun h => absurd h hmem, fun _ => rfl⟩

/-- Witness of C4 (amended): a pull of 2 by X, with an advancing clock, on a store of
three messages. -/
theorem pull_effect_witness :
    (getRequest "X" "2" "5" (ticking 0)).method = Method.get ∧
    (messagesHandler threeMessages (getRequest "X" "2" "5" (ticking 0))).1.messageStore.length =
      threeMessages.messageStore.length :=
  ⟨rfl, (pull_effect threeMessages (getRequest "X" "2" "5" (ticking 0)) rfl).2.1⟩

/-- C5: for every store and every payload p, a successful POST answers with status
201 and appends exactly one message, whose content is p and whose lease holder is
empty; every message stored before keeps its position and value; the new message is
Available at every time, and a GET handled next whose count is at least the
number of Available messages returns it. When the GET call reads the clock several
times, the count is at least the number of messages Available at a time T that no
reading of the call exceeds. -/
theorem enqueue_visible (s : Server) (r : Request) (p : String)
    (hpost : r.method = Method.post) (hbody : r.body = some p) :
    (messagesHandler s r).2.status = statusCreated ∧
    (messagesHandler s r).2.created = some ⟨r.newID, p, "", zeroTime⟩ ∧
    (messagesHandler s r).1.messageStore = s.messageStore ++ [⟨r.newID, p, "", zeroTime⟩] ∧
    (messagesHandler s r).1.messageStore.length = s.messageStore.length + 1 ∧
    (∀ (j : Nat) (m : Message), s.messageStore[j]? = some m →
      (messagesHandler s r).1.messageStore[j]? = some m) ∧
    (∀ now : Int, available now ⟨r.newID, p, "", zeroTime⟩ = true) ∧
    (∀ (g : Request) (T : Int), g.method = Method.get → (∀ q : Nat, g.clock q ≤ T) →
      (availableCount T (messagesHandler s r).1.messageStore : Int) ≤ reqCount g →
      s.messageStore.length ∈ (messagesHandler (messagesHandler s r).1 g).2.responseMessages) := by
  have hstore : (messagesHandler s r).1.messageStore =
      s.messageStore ++ [⟨r.newID, p, "", zeroTime⟩] := by
    simp [messagesHandler, hpost, hbody]
  have hav : ∀ now : Int, available now ⟨r.newID, p, "", zeroTime⟩ = true := by
    intro now
    simp [available]
  refine ⟨by simp [messagesHandler, hpost, hbody], by simp [messagesHandler, hpost, hbody],
    hstore, by simp [hstore], ?_, hav, ?_⟩
  · intro j m hj
    have hlt : j < s.messageStore.length := (List.getElem?_eq_some_iff.1 hj).1
    rw [hstore, List.getElem?_append_left hlt]
    exact hj
  · intro g T hg hT hk
    apply get_all _ g T hg hT hk _ ⟨r.newID, p, "", zeroTime⟩ _ (fun q => hav (g.clock q))
    rw [hstore]
    simp

/-- Witness of C5: the payload D is posted to a store of three messages and returned
by the next pull of 4. -/
theorem enqueue_visible_witness :
    (postRequest "D" "id-d").method = Method.post ∧
    (messagesHandler threeMessages (postRequest "D" "id-d")).1.messageStore =
      threeMessages.messageStore ++ [⟨"id-d", "D", "", zeroTime⟩] ∧
    3 ∈ (messagesHandler (messagesHandler threeMessages (postRequest "D" "id-d")).1
      (getRequest "X" "4" "5" (ticking 8))).2.responseMessages :=
  ⟨rfl, (enqueue_visible threeMessages (postRequest "D" "id-d") "D" rfl rfl).2.2.1,
    by decide⟩

/-- C6, as stated, fails. First part: a GET without any query parameter is answered
with status 200, not with a client error. Second part: a GET with count 1 and without
the parameter `leaseExpiredAtInSeconds` is answered with status 200, returns the
message and changes its lease state. Third part: the count `99999999999999999999x`
is not an integer, it is read as the largest `int`, the request is answered with
status 200 and the message is leased. -/
theorem pull_validation_counterexample :
    (queryGet (⟨Method.get, none, [], instant 0, ""⟩ : Request).query "count" = "" ∧
      (messagesHandler oneMessage ⟨Method.get, none, [], instant 0, ""⟩).2.status = 200) ∧
    (queryGet (⟨Method.get, none, [("clientId", "X"), ("count", "1")], instant 7, ""⟩ :
        Request).query "leaseExpiredAtInSeconds" = "" ∧
      (messagesHandler oneMessage
        ⟨Method.get, none, [("clientId", "X"), ("count", "1")], instant 7, ""⟩).2.status = 200 ∧
      (messagesHandler oneMessage
        ⟨Method.get, none, [("clientId", "X"), ("count", "1")], instant 7,
          ""⟩).2.responseMessages = [0] ∧
      (messagesHandler oneMessage
        ⟨Method.get, none, [("clientId", "X"), ("count", "1")], instant 7, ""⟩).1.messageStore =
          [⟨"id-a", "A", "X", 7⟩]) ∧
    (atoiErr "99999999999999999999x" = (9223372036854775807, true) ∧
      (messagesHandler oneMessage
        (getRequest "X" "99999999999999999999x" "5" (instant 0))).2.status = 200 ∧
      (messagesHandler oneMessage
        (getRequest "X" "99999999999999999999x" "5" (instant 0))).1.messageStore =
          [⟨"id-a", "A", "X", 5000000000⟩]) := by
  decide

/-- C6, amended: the GET branch validates nothing and answers every GET request with
status 200, never with a client error. The count and the lease are the values that
`strconv.Atoi` returns, its error being dropped; a missing count is read as 0. For
every GET request whose count so read is less than 1 the handler returns no message
and leaves the store unchanged. For every GET request whose count so read is at
least 1, whatever its lease parameter (missing, not an integer, zero or negative), the
handler returns at least one message when a stored message has no holder, and every
returned message is stored with the client id of the request as holder. -/
theorem pull_validation (s : Server) (r : Request) (hget : r.method = Method.get) :
    (messagesHandler s r).2.status = statusOK ∧
    (queryGet r.query "count" = "" → reqCount r = 0) ∧
    (queryGet r.query "leaseExpiredAtInSeconds" = "" → reqLease r = 0) ∧
    (reqCount r < 1 →
      (messagesHandler s r).2.responseMessages = [] ∧ (messagesHandler s r).1 = s) ∧
    (1 ≤ reqCount r →
      ((∃ m ∈ s.messageStore, m.LeasedBy = "") →
        (messagesHandler s r).2.responseMessages ≠ []) ∧
      ∀ (j : Nat) (m : Message), s.messageStore[j]? = some m →
        j ∈ (messagesHandler s r).2.responseMessages →
        ∃ b : Nat, (messagesHandler s r).1.messageStore[j]? =
          some { m with LeasedBy := reqClient r,
                        LeaseExp := r.clock b + leaseDuration (reqLease r) }) := by
  refine ⟨(get_spec s r hget).1, ?_, ?_, ?_, ?_⟩
  · intro h
    simp only [reqCount, h]
    decide
  · intro h
    simp only [reqLease, h]
    decide
  · intro hk
    rw [handler_get s r hget]
    cases hs : s.messageStore with
    | nil => cases s; simp_all [leaseLoop]
    | cons a rest =>
      have h0 : reqCount r ≤ 0 := by omega
      cases s
      simp_all [leaseLoop]
  · intro hk
    refine ⟨?_, ?_⟩
    · intro hex hnil
      have := leaseLoop_some (reqClient r) (reqCount r) (reqLease r) r.clock s.messageStore
        0 [] 0 (by simpa using hk) hex
      rw [handler_get s r hget] at hnil
      simp only at hnil
      rw [hnil] at this
      simp at this
    · intro j m hj hmem
      obtain ⟨_, _, _, _, _, hpt⟩ := get_spec s r hget
      obtain ⟨_, b, _, _, hst⟩ := (hpt j m hj).1 hmem
      exact ⟨b, hst⟩

/-- Witness of C6 (amended): a GET without query parameters on a store of one message. -/
theorem pull_validation_witness :
    (⟨Method.get, none, [], instant 0, ""⟩ : Request).method = Method.get ∧
    (messagesHandler oneMessage ⟨Method.get, none, [], instant 0, ""⟩).2.status = statusOK ∧
    (messagesHandler oneMessage ⟨Method.get, none, [], instant 0, ""⟩).1 = oneMessage :=
  ⟨rfl, (pull_validation oneMessage ⟨Method.get, none, [], instant 0, ""⟩ rfl).1,
    ((pull_validation oneMessage ⟨Method.get, none, [], instant 0, ""⟩ rfl).2.2.2.1
      (by decide)).2⟩

/-! ## The payload generator -/

theorem phraseLoop_stuck_tail : ∀ (fuel i : Nat), 3 ≤ i →
    phraseLoop 350 stuckDraws fuel i stuckBuilder = none := by
  intro fuel
  induction fuel with
  | zero => intro i _; rfl
  | succ n ih =>
    intro i hi
    have hdraw : stuckDraws i = 11 := by
      have : i ≠ 2 := by omega
      simp [stuckDraws, this]
    have hb : stuckBuilder.utf8ByteSize = 328 := by decide
    have hp : (phraseAt 11).utf8ByteSize = 132 := by decide
    rw [phraseLoop]
    simp only [hdraw, hb, hp, maxLength]
    simp only [show (328 : Nat) < 350 from by decide, if_true,
      show 328 + 132 + 1 > 450 from by decide, show ¬ ((328 : Nat) = 0) from by decide, if_false]
    exact ih (i + 1) (by omega)

theorem phraseLoop_stuck_start (fuel : Nat) :
    phraseLoop 350 stuckDraws (fuel + 3) 0 "" = phraseLoop 350 stuckDraws fuel 3 stuckBuilder := by
  have h0 : ("" : String).utf8ByteSize = 0 := by decide
  have hp : (phraseAt 11).utf8ByteSize = 132 := by decide
  have hq : (phraseAt 6).utf8ByteSize = 61 := by decide
  have h1 : (("" ++ phraseAt 11) ++ " ").utf8ByteSize = 133 := by decide
  have h2 : (((("" ++ phraseAt 11) ++ " ") ++ phraseAt 11) ++ " ").utf8ByteSize = 266 := by decide
  have d0 : stuckDraws 0 = 11 := by decide
  have d1 : stuckDraws 1 = 11 := by decide
  have d2 : stuckDraws 2 = 6 := by decide
  rw [phraseLoop]
  simp only [h0, d0, hp, maxLength, show (0 : Nat) < 350 from by decide, if_true,
    show ¬ (0 + 132 + 1 > 450) from by decide, if_false]
  rw [phraseLoop]
  simp only [h1, d1, hp, maxLength, show (133 : Nat) < 350 from by decide, if_true,
    show ¬ (133 + 132 + 1 > 450) from by decide, if_false, Nat.zero_add]
  rw [phraseLoop]
  simp only [h2, d2, hq, maxLength, show (266 : Nat) < 350 from by decide, if_true,
    show ¬ (266 + 61 + 1 > 450) from by decide, if_false]
  rfl

/-- C10, as stated, fails. First part: with the target length 350 and the draws 11,
11, 6, 11, 0 the builder holds 328 bytes after three phrases; the fourth draw would
push it past 450 bytes, and the loop does not stop there: it drops that draw, draws
again and returns four phrases, 372 bytes. Second part: with the draws 11, 11, 6, 11,
11, ... the loop draws again for ever and does not exit within any number of
iterations. -/
theorem generateRandomString_stuck :
    (generateRandomString 6 200 redrawDraws =
        some (" ".intercalate [phraseAt 11, phraseAt 11, phraseAt 6, phraseAt 0]) ∧
      (" ".intercalate [phraseAt 11, phraseAt 11, phraseAt 6, phraseAt 0]).utf8ByteSize = 372 ∧
      stuckBuilder.utf8ByteSize = 328 ∧
      stuckBuilder.utf8ByteSize + (phraseAt (redrawDraws 3)).utf8ByteSize + 1 > maxLength) ∧
    ((∀ fuel : Nat, generateRandomString fuel 200 stuckDraws = none) ∧
      (∀ fuel : Nat, phraseLoop 350 stuckDraws (fuel + 3) 0 "" =
        phraseLoop 350 stuckDraws fuel 3 stuckBuilder) ∧
      (∀ fuel : Nat, phraseLoop 350 stuckDraws (fuel + 1) 3 stuckBuilder =
        phraseLoop 350 stuckDraws fuel 4 stuckBuilder) ∧
      stuckBuilder.utf8ByteSize + (phraseAt (stuckDraws 3)).utf8ByteSize + 1 > maxLength) := by
  refine ⟨by decide, ?_, phraseLoop_stuck_start, ?_, by decide⟩
  · intro fuel
    have hloop : phraseLoop 350 stuckDraws fuel 0 "" = none := by
      match fuel with
      | 0 => rfl
      | 1 => decide
      | 2 => decide
      | n + 3 => rw [phraseLoop_stuck_start]; exact phraseLoop_stuck_tail n 3 (Nat.le_refl 3)
    simp only [generateRandomString]
    rw [show 150 + (200 : Fin 201).val = 350 from rfl, hloop]
  · intro fuel
    rw [phraseLoop_stuck_tail (fuel + 1) 3 (Nat.le_refl 3),
      phraseLoop_stuck_tail fuel 4 (by decide)]

theorem phrases_ends : ∀ p ∈ phrases,
    p.data.head?.map isSpace = some false ∧ p.data.getLast?.map isSpace = some false := by
  decide

theorem phraseAt_mem : ∀ i : Fin 13, phraseAt i ∈ phrases := by
  decide

theorem intercalate_go_data (sep : String) (rest : List String) :
    ∀ acc : String, (String.intercalate.go acc sep rest).data =
      acc.data ++ (rest.map (fun p => sep.data ++ p.data)).flatten := by
  induction rest with
  | nil => intro acc; simp [String.intercalate.go]
  | cons a rest ih =>
    intro acc
    rw [String.intercalate.go, ih]
    simp [List.append_assoc]

theorem intercalate_data (a : String) (rest : List String) :
    (" ".intercalate (a :: rest)).data =
      a.data ++ (rest.map (fun p => ' ' :: p.data)).flatten := by
  rw [String.intercalate, intercalate_go_data]
  rfl

theorem spaced_cons (a : String) (rest : List String) :
    ((a :: rest).map (fun p => p.data ++ [' '])).flatten =
      (a.data ++ (rest.map (fun p => ' ' :: p.data)).flatten) ++ [' '] := by
  induction rest generalizing a with
  | nil => simp
  | cons b rest ih =>
    have h := ih b
    simp only [List.map_cons, List.flatten_cons] at h ⊢
    rw [h]
    simp [List.append_assoc]

theorem joined_last (rest : List String) :
    ∀ a : String, (∀ p ∈ a :: rest, p.data.getLast?.map isSpace = some false) →
      (a.data ++ (rest.map (fun p => ' ' :: p.data)).flatten).getLast?.map isSpace =
        some false := by
  induction rest with
  | nil =>
    intro a h
    simpa using h a (List.mem_cons_self _ _)
  | cons b rest ih =>
    intro a h
    have hb := ih b (fun p hp => h p (List.mem_cons_of_mem _ hp))
    have hsplit : a.data ++ ((b :: rest).map (fun p => ' ' :: p.data)).flatten =
        (a.data ++ [' ']) ++ (b.data ++ (rest.map (fun p => ' ' :: p.data)).flatten) := by
      simp [List.append_assoc]
    rw [hsplit, List.getLast?_append]
    cases hl : (b.data ++ (rest.map (fun p => ' ' :: p.data)).flatten).getLast? with
    | none => rw [hl] at hb; simp at hb
    | some x => rw [hl] at hb; simpa using hb

theorem trim_joined (body : List Char)
    (hhead : body.head?.map isSpace = some false)
    (hlast : body.getLast?.map isSpace = some false) :
    (((body ++ [' ']).dropWhile isSpace).reverse.dropWhile isSpace).reverse = body := by
  cases body with
  | nil => simp at hhead
  | cons c rest =>
    have hc : isSpace c = false := by simpa using hhead
    have h1 : ((c :: rest) ++ [' ']).dropWhile isSpace = (c :: rest) ++ [' '] := by
      rw [List.cons_append, List.dropWhile_cons_of_neg (by simp [hc])]
    rw [h1, List.reverse_append, List.reverse_singleton, List.singleton_append,
      List.dropWhile_cons_of_pos (by decide)]
    have hrev : (c :: rest).reverse.head?.map isSpace = some false := by
      rw [List.head?_reverse]; exact hlast
    cases hr : (c :: rest).reverse with
    | nil => rw [hr] at hrev; simp at hrev
    | cons x t =>
      rw [hr] at hrev
      have hx : isSpace x = false := by simpa using hrev
      rw [List.dropWhile_cons_of_neg (by simp [hx]), ← hr, List.reverse_reverse]

theorem phraseLoop_inv (target : Nat) (draws : Nat → Fin 13) :
    ∀ (fuel i : Nat) (builder out : String),
      phraseLoop target draws fuel i builder = some out →
      builder.utf8ByteSize ≤ maxLength →
      (∃ ps : List String, (∀ p ∈ ps, p ∈ phrases) ∧
        builder.data = (ps.map (fun p => p.data ++ [' '])).flatten) →
      out.utf8ByteSize ≤ maxLength ∧
        ∃ ps : List String, (∀ p ∈ ps, p ∈ phrases) ∧
          out.data = (ps.map (fun p => p.data ++ [' '])).flatten := by
  intro fuel
  induction fuel with
  | zero => intro i builder out h; simp [phraseLoop] at h
  | succ n ih =>
    intro i builder out h hsize hps
    rw [phraseLoop] at h
    by_cases hlt : builder.utf8ByteSize < target
    · simp only [hlt, if_true] at h
      by_cases hbig : builder.utf8ByteSize + (phraseAt (draws i)).utf8ByteSize + 1 > maxLength
      · simp only [hbig, if_true] at h
        by_cases hzero : builder.utf8ByteSize = 0
        · simp only [hzero, if_true, Option.some.injEq] at h
          subst h
          exact ⟨hsize, hps⟩
        · simp only [hzero, if_false] at h
          exact ih (i + 1) builder out h hsize hps
      · simp only [hbig, if_false] at h
        apply ih (i + 1) _ out h
        · have : ((builder ++ phraseAt (draws i)) ++ " ").utf8ByteSize =
              builder.utf8ByteSize + (phraseAt (draws i)).utf8ByteSize + 1 := by
            show String.utf8Len ((builder ++ phraseAt (draws i)) ++ " ").data = _
            simp only [String.data_append, String.utf8Len_append]
            rfl
          omega
        · obtain ⟨ps, hmem, hdata⟩ := hps
          refine ⟨ps ++ [phraseAt (draws i)], ?_, ?_⟩
          · intro p hp
            rcases List.mem_append.1 hp with h1 | h1
            · exact hmem p h1
            · rw [List.mem_singleton.1 h1]; exact phraseAt_mem _
          · simp only [String.data_append, hdata, List.map_append, List.flatten_append,
              List.map_cons, List.map_nil, List.flatten_cons, List.flatten_nil, List.append_nil,
              List.append_assoc]
    · simp only [hlt, if_false, Option.some.injEq] at h
      subst h
      exact ⟨hsize, hps⟩

/-- C7: for every target length drawn in 150..350 and every sequence of phrase draws on
which it returns, `generateRandomString` of the MessageQueueTesting client returns a
non-empty string of at most 450 bytes whose first and last characters are not white
space and which is the concatenation, separated by single spaces, of one or more
phrases of its phrase list. -/
theorem generateRandomString_shape (fuel : Nat) (r : Fin 201) (draws : Nat → Fin 13)
    (s : String) (h : generateRandomString fuel r draws = some s) :
    s ≠ "" ∧ s.utf8ByteSize ≤ 450 ∧
    s.data.head?.map isSpace = some false ∧ s.data.getLast?.map isSpace = some false ∧
    ∃ ps : List String, ps ≠ [] ∧ (∀ p ∈ ps, p ∈ phrases) ∧ s = " ".intercalate ps := by
  unfold generateRandomString at h
  cases hl : phraseLoop (150 + r.val) draws fuel 0 "" with
  | none => simp [hl] at h
  | some out =>
    simp only [hl, Option.some.injEq] at h
    obtain ⟨hsize, ps, hmem, hdata⟩ :=
      phraseLoop_inv _ _ fuel 0 "" out hl (by decide) ⟨[], by simp, rfl⟩
    cases ps with
    | nil =>
      have hout : out = "" := by
        apply String.ext
        simpa using hdata
      subst hout
      have hs : s = "The quick brown fox jumps over the lazy dog." := by
        rw [← h]
        decide
      subst hs
      refine ⟨by decide, by decide, by decide, by decide,
        ["The quick brown fox jumps over the lazy dog."], by simp, ?_, by decide⟩
      intro p hp
      rw [List.mem_singleton.1 hp]
      decide
    | cons a rest =>
      rw [spaced_cons] at hdata
      have hbytes : out.utf8ByteSize =
          String.utf8Len (a.data ++ (rest.map (fun p => ' ' :: p.data)).flatten) + 1 := by
        show String.utf8Len out.data = _
        rw [hdata, String.utf8Len_append]
        rfl
      have hne : ¬ (out.utf8ByteSize = 0) := by omega
      simp only [hne, if_false] at h
      have ha := (phrases_ends a (hmem a (List.mem_cons_self _ _))).1
      have hhead : (a.data ++ (rest.map (fun p => ' ' :: p.data)).flatten).head?.map isSpace =
          some false := by
        rw [List.head?_append]
        cases hh : a.data.head? with
        | none => rw [hh] at ha; simp at ha
        | some c => rw [hh] at ha; simpa using ha
      have hlast := joined_last rest a (fun p hp => (phrases_ends p (hmem p hp)).2)
      have hsdata : s.data = a.data ++ (rest.map (fun p => ' ' :: p.data)).flatten := by
        rw [← h]
        simp only [trimSpace, hdata]
        exact trim_joined _ hhead hlast
      refine ⟨?_, ?_, by rw [hsdata]; exact hhead, by rw [hsdata]; exact hlast,
        a :: rest, by simp, hmem, ?_⟩
      · intro hs
        rw [hs] at hsdata
        rw [← hsdata] at hhead
        simp at hhead
      · show String.utf8Len s.data ≤ 450
        rw [hsdata]
        simp only [maxLength] at hsize
        omega
      · apply String.ext
        rw [hsdata, intercalate_data]

/-- Witness of C7: with the target length 150 and the first phrase drawn each time the
generator returns four copies of that phrase. -/
theorem generateRandomString_shape_witness :
    generateRandomString 10 0 firstPhraseDraws =
      some (" ".intercalate (List.replicate 4 "The quick brown fox jumps over the lazy dog.")) ∧
    (" ".intercalate (List.replicate 4 "The quick brown fox jumps over the lazy dog.")).utf8ByteSize
      ≤ 450 :=
  ⟨by decide,
    (generateRandomString_shape 10 0 firstPhraseDraws
      (" ".intercalate (List.replicate 4 "The quick brown fox jumps over the lazy dog."))
      (by decide)).2.1⟩

theorem phraseLoop_exits_aux (target : Nat) (draws : Nat → Fin 13) (htarget : target ≤ 350)
    (hfit : ∀ i : Nat, ∃ j : Nat, i ≤ j ∧ (phraseAt (draws j)).utf8ByteSize ≤ 100) :
    ∀ (m i : Nat) (b : String), target - b.utf8ByteSize ≤ m →
      ∃ fuel : Nat, (phraseLoop target draws fuel i b).isSome = true := by
  intro m
  induction m with
  | zero =>
    intro i b hm
    refine ⟨1, ?_⟩
    have : ¬ b.utf8ByteSize < target := by omega
    simp [phraseLoop, this]
  | succ m ih =>
    intro i b hm
    by_cases hlt : b.utf8ByteSize < target
    · have hgap : ∀ (g i : Nat), (phraseAt (draws (i + g))).utf8ByteSize ≤ 100 →
          ∃ fuel : Nat, (phraseLoop target draws fuel i b).isSome = true := by
        intro g
        induction g with
        | zero =>
          intro i hsmall
          have hnot : ¬ (b.utf8ByteSize + (phraseAt (draws i)).utf8ByteSize + 1 > maxLength) := by
            simp only [Nat.add_zero] at hsmall
            simp only [maxLength]
            omega
          obtain ⟨fuel, hfuel⟩ := ih (i + 1) ((b ++ phraseAt (draws i)) ++ " ") (by
            have : ((b ++ phraseAt (draws i)) ++ " ").utf8ByteSize =
                b.utf8ByteSize + (phraseAt (draws i)).utf8ByteSize + 1 := by
              show String.utf8Len ((b ++ phraseAt (draws i)) ++ " ").data = _
              simp only [String.data_append, String.utf8Len_append]
              rfl
            omega)
          refine ⟨fuel + 1, ?_⟩
          rw [phraseLoop]
          simp only [hlt, if_true, hnot, if_false]
          exact hfuel
        | succ g ihg =>
          intro i hsmall
          by_cases hbig : b.utf8ByteSize + (phraseAt (draws i)).utf8ByteSize + 1 > maxLength
          · by_cases hzero : b.utf8ByteSize = 0
            · refine ⟨1, ?_⟩
              rw [phraseLoop]
              simp only [hlt, if_true, hbig]
              rw [if_pos hzero]
              rfl
            · have hnext : (phraseAt (draws (i + 1 + g))).utf8ByteSize ≤ 100 := by
                have : i + 1 + g = i + (g + 1) := by omega
                rw [this]
                exact hsmall
              obtain ⟨fuel, hfuel⟩ := ihg (i + 1) hnext
              refine ⟨fuel + 1, ?_⟩
              rw [phraseLoop]
              simp only [hlt, if_true, hbig, hzero, if_false]
              exact hfuel
          · obtain ⟨fuel, hfuel⟩ := ih (i + 1) ((b ++ phraseAt (draws i)) ++ " ") (by
              have : ((b ++ phraseAt (draws i)) ++ " ").utf8ByteSize =
                  b.utf8ByteSize + (phraseAt (draws i)).utf8ByteSize + 1 := by
                show String.utf8Len ((b ++ phraseAt (draws i)) ++ " ").data = _
                simp only [String.data_append, String.utf8Len_append]
                rfl
              omega)
            refine ⟨fuel + 1, ?_⟩
            rw [phraseLoop]
            simp only [hlt, if_true, hbig, if_false]
            exact hfuel
      obtain ⟨j, hij, hsmall⟩ := hfit i
      have hj : i + (j - i) = j := by omega
      exact hgap (j - i) i (by rw [hj]; exact hsmall)
    · refine ⟨1, ?_⟩
      simp [phraseLoop, hlt]

/-- C10, amended: for every target length in 150..350 and every infinite sequence of
phrase draws in which every position is followed, sooner or later, by the draw of a
phrase of at most 100 bytes, the phrase-appending loop exits after finitely many
iterations and `generateRandomString` returns; when a drawn phrase (plus its space)
would push the builder past 450 bytes and the builder is non-empty, the loop drops
that draw, leaves the builder unchanged and draws again. -/
theorem generateRandomString_exits (r : Fin 201) (draws : Nat → Fin 13)
    (hfit : ∀ i : Nat, ∃ j : Nat, i ≤ j ∧ (phraseAt (draws j)).utf8ByteSize ≤ 100) :
    (∃ (fuel : Nat) (s : String), generateRandomString fuel r draws = some s) ∧
    (∀ (fuel i : Nat) (builder : String), builder.utf8ByteSize < 150 + r.val →
      builder.utf8ByteSize + (phraseAt (draws i)).utf8ByteSize + 1 > maxLength →
      builder.utf8ByteSize ≠ 0 →
      phraseLoop (150 + r.val) draws (fuel + 1) i builder =
        phraseLoop (150 + r.val) draws fuel (i + 1) builder) := by
  refine ⟨?_, ?_⟩
  · obtain ⟨fuel, hfuel⟩ := phraseLoop_exits_aux (150 + r.val) draws (by omega) hfit
      (150 + r.val) 0 "" (by omega)
    cases hl : phraseLoop (150 + r.val) draws fuel 0 "" with
    | none => rw [hl] at hfuel; simp at hfuel
    | some out =>
      refine ⟨fuel,
        trimSpace (if out.utf8ByteSize = 0 then out ++ phrases.getD 0 "" else out), ?_⟩
      simp only [generateRandomString, hl]
  · intro fuel i builder hlt hbig hzero
    rw [phraseLoop]
    simp only [hlt, if_true, hbig, hzero, if_false]

/-- Witness of C10 (amended): when the first phrase is drawn each time, the generator
returns for the target length 350. -/
theorem generateRandomString_exits_witness :
    ∃ (fuel : Nat) (s : String), generateRandomString fuel 200 firstPhraseDraws = some s :=
  (generateRandomString_exits 200 firstPhraseDraws
    (fun i => ⟨i, Nat.le_refl i, by show (phraseAt 0).utf8ByteSize ≤ 100; decide⟩)).1

/-! ## Duplicate detection -/

theorem repeatedPositions_cons (S T : List String) (a : String) (ids : List String)
    (hT : ∀ x, x ∈ T ↔ x ∈ S ∨ x = a) :
    repeatedPositions S (a :: ids) = (if a ∈ S then 1 else 0) + repeatedPositions T ids := by
  unfold repeatedPositions
  have hcongr : List.filter
      ((fun i => decide ((a :: ids).getD i "" ∈ S) ||
        decide ((a :: ids).getD i "" ∈ (a :: ids).take i)) ∘ Nat.succ) (List.range ids.length) =
      List.filter (fun i => decide (ids.getD i "" ∈ T) || decide (ids.getD i "" ∈ ids.take i))
        (List.range ids.length) := by
    apply List.filter_congr
    intro i _
    simp only [Function.comp, Nat.succ_eq_add_one, List.getD_cons_succ, List.take_succ_cons,
      List.mem_cons, hT]
    simp [Bool.or_assoc]
  rw [List.length_cons, List.range_succ_eq_map, List.filter_cons, List.filter_map, hcongr]
  by_cases ha : a ∈ S
  · simp [ha, Nat.add_comm]
  · simp [ha]

theorem loadOrStore_mem (S : List String) (a x : String) :
    x ∈ (loadOrStore S a).1 ↔ x ∈ S ∨ x = a := by
  unfold loadOrStore
  by_cases ha : a ∈ S
  · simp only [ha, if_true]
    constructor
    · intro h; exact Or.inl h
    · rintro (h | h)
      · exact h
      · rw [h]; exact ha
  · simp [ha]

theorem loadOrStore_loaded (S : List String) (a : String) :
    (loadOrStore S a).2 = true ↔ a ∈ S := by
  unfold loadOrStore
  by_cases ha : a ∈ S <;> simp [ha]

theorem checkDuplicates_mem (msgs : List GetMessageResponse) :
    ∀ (S : List String) (c : Int) (x : String),
      x ∈ (checkDuplicates S c msgs).1 ↔
        x ∈ S ∨ x ∈ msgs.map GetMessageResponse.MessageID := by
  induction msgs with
  | nil => intro S c x; simp [checkDuplicates]
  | cons msg rest ih =>
    intro S c x
    simp only [checkDuplicates, List.map_cons, List.mem_cons]
    split
    · rw [ih, loadOrStore_mem]
      tauto
    · rw [ih, loadOrStore_mem]
      tauto

theorem checkDuplicates_count (msgs : List GetMessageResponse) :
    ∀ (S : List String) (c : Int), -9223372036854775808 ≤ c →
      c + (repeatedPositions S (msgs.map GetMessageResponse.MessageID) : Int) ≤
        9223372036854775807 →
      (checkDuplicates S c msgs).2 =
        c + (repeatedPositions S (msgs.map GetMessageResponse.MessageID) : Int) := by
  induction msgs with
  | nil => intro S c _ _; simp [checkDuplicates, repeatedPositions]
  | cons msg rest ih =>
    intro S c hc0 hc1
    have hrec := repeatedPositions_cons S (loadOrStore S msg.MessageID).1 msg.MessageID
      (rest.map GetMessageResponse.MessageID) (loadOrStore_mem S msg.MessageID)
    simp only [List.map_cons] at hc1 ⊢
    rw [hrec] at hc1 ⊢
    by_cases ha : msg.MessageID ∈ S
    · have hl : (loadOrStore S msg.MessageID).2 = true := (loadOrStore_loaded S _).2 ha
      simp only [ha, if_true] at hc1 ⊢
      push_cast at hc1 ⊢
      have hw : wrap64 (c + 1) = c + 1 := wrap64_of_range _ (by omega) (by omega)
      simp only [checkDuplicates, hl, if_true, hw]
      rw [ih _ (c + 1) (by omega) (by omega)]
      omega
    · have hl : (loadOrStore S msg.MessageID).2 = false := by
        have := loadOrStore_loaded S msg.MessageID
        cases h : (loadOrStore S msg.MessageID).2
        · rfl
        · exact absurd (this.1 h) ha
      simp only [ha, if_false] at hc1 ⊢
      push_cast at hc1 ⊢
      simp only [checkDuplicates, hl, Bool.false_eq_true, if_false]
      rw [ih _ c hc0 (by omega)]
      omega

theorem repeatedPositions_eq_zero (ids : List String) :
    ∀ S : List String, repeatedPositions S ids = 0 ↔ ids.Nodup ∧ ∀ x ∈ ids, x ∉ S := by
  induction ids with
  | nil => intro S; simp [repeatedPositions]
  | cons a rest ih =>
    intro S
    rw [repeatedPositions_cons S (S ++ [a]) a rest (by intro x; simp)]
    rw [Nat.add_eq_zero_iff, ih (S ++ [a])]
    simp only [List.nodup_cons, List.mem_cons, List.mem_append, List.not_mem_nil, or_false]
    constructor
    · rintro ⟨h1, h2, h3⟩
      have ha : a ∉ S := by
        by_cases ha : a ∈ S
        · simp [ha] at h1
        · exact ha
      refine ⟨⟨?_, h2⟩, ?_⟩
      · intro hmem
        exact (h3 a hmem) (Or.inr rfl)
      · rintro x (rfl | hx)
        · exact ha
        · intro hS
          exact (h3 x hx) (Or.inl hS)
    · rintro ⟨⟨h1, h2⟩, h3⟩
      refine ⟨?_, h2, ?_⟩
      · simp [h3 a (Or.inl rfl)]
      · intro x hx
        rintro (hS | rfl)
        · exact h3 x (Or.inr hx) hS
        · exact h1 hx

/-- C8, as stated, fails: the counter is an `int64` and `atomic.AddInt64` wraps
around. From the counter value 9223372036854775807 and the set holding the id a, one
duplicate of a leaves the counter at -9223372036854775808, not at the counter plus
the one repeated position. -/
theorem checkDuplicates_counterexample :
    checkDuplicates ["a"] 9223372036854775807 [⟨"a", "x"⟩] = (["a"], -9223372036854775808) ∧
    repeatedPositions ["a"] ["a"] = 1 ∧
    (-9223372036854775808 : Int) ≠ 9223372036854775807 + ((1 : Nat) : Int) := by
  decide

/-- C8, amended: starting from any set S of received ids and any counter value c, the
`LoadOrStore` loop of `getMessages` over a response list leaves the set equal to S
union the ids of the list. When c plus the number of list positions whose id was
already in S or occurred earlier in the list does not exceed 9223372036854775807, the
largest `int64`, the loop leaves the counter equal to that sum, and the counter is
unchanged if and only if the ids of the list are pairwise distinct and none is in S. -/
theorem checkDuplicates_spec (S : List String) (c : Int) (msgs : List GetMessageResponse) :
    (∀ x, x ∈ (checkDuplicates S c msgs).1 ↔
      x ∈ S ∨ x ∈ msgs.map GetMessageResponse.MessageID) ∧
    (-9223372036854775808 ≤ c →
      c + (repeatedPositions S (msgs.map GetMessageResponse.MessageID) : Int) ≤
        9223372036854775807 →
      (checkDuplicates S c msgs).2 =
        c + (repeatedPositions S (msgs.map GetMessageResponse.MessageID) : Int) ∧
      ((checkDuplicates S c msgs).2 = c ↔
        (msgs.map GetMessageResponse.MessageID).Nodup ∧
          ∀ x ∈ msgs.map GetMessageResponse.MessageID, x ∉ S)) := by
  refine ⟨checkDuplicates_mem msgs S c, ?_⟩
  intro hc0 hc1
  have h2 := checkDuplicates_count msgs S c hc0 hc1
  refine ⟨h2, ?_⟩
  rw [h2, ← repeatedPositions_eq_zero]
  omega

/-- Witness of C8 (amended): from the set holding a and the counter 3, the list
a, b, b, c has two repeated positions and leaves the counter at 5. -/
theorem checkDuplicates_spec_witness :
    (checkDuplicates ["a"] 3 [⟨"a", "x"⟩, ⟨"b", "x"⟩, ⟨"b", "x"⟩, ⟨"c", "x"⟩]).2 =
      3 + ((repeatedPositions ["a"] ["a", "b", "b", "c"] : Nat) : Int) :=
  ((checkDuplicates_spec ["a"] 3 [⟨"a", "x"⟩, ⟨"b", "x"⟩, ⟨"b", "x"⟩, ⟨"c", "x"⟩]).2
    (by decide) (by decide)).1

end MessageQueueTesting

namespace Testing

theorem utf8Len_of_ascii (l : List Char) (h : ∀ c ∈ l, c.utf8Size = 1) :
    String.utf8Len l = l.length := by
  induction l with
  | nil => rfl
  | cons a rest ih =>
    rw [String.utf8Len_cons, List.length_cons, ih (fun c hc => h c (List.mem_cons_of_mem _ hc)),
      h a (List.mem_cons_self _ _)]

theorem charsetAt_mem : ∀ i : Fin 63, charsetAt i ∈ charset.data ∧ (charsetAt i).utf8Size = 1 := by
  decide

/-- C9: for every length n ≥ 0 and every sequence of draws, `generateRandomString(n)`
of the testing client returns a string of exactly n bytes (and n characters), each of
which is one of the characters of `charset`; `charset` has 63 bytes, which are 63
distinct characters, each a letter a-z or A-Z, a digit 0-9 or the space. -/
theorem generateRandomString_charset (n : Nat) (draws : Nat → Fin 63) :
    (generateRandomString n draws).utf8ByteSize = n ∧
    (generateRandomString n draws).length = n ∧
    (∀ c ∈ (generateRandomString n draws).data, c ∈ charset.data) ∧
    charset.utf8ByteSize = 63 ∧ charset.data.length = 63 ∧ charset.data.Nodup ∧
    (∀ c ∈ charset.data, c.isLower = true ∨ c.isUpper = true ∨ c.isDigit = true ∨ c = ' ') := by
  have hmem : ∀ c ∈ (generateRandomString n draws).data, c ∈ charset.data := by
    intro c hc
    simp only [generateRandomString, List.mem_map, List.mem_range] at hc
    obtain ⟨i, _, rfl⟩ := hc
    exact (charsetAt_mem (draws i)).1
  have hascii : ∀ c ∈ (generateRandomString n draws).data, c.utf8Size = 1 := by
    intro c hc
    simp only [generateRandomString, List.mem_map, List.mem_range] at hc
    obtain ⟨i, _, rfl⟩ := hc
    exact (charsetAt_mem (draws i)).2
  have hlen : (generateRandomString n draws).data.length = n := by
    simp [generateRandomString]
  refine ⟨?_, hlen, hmem, by decide, by decide, by decide, by decide⟩
  show String.utf8Len (generateRandomString n draws).data = n
  rw [utf8Len_of_ascii _ hascii, hlen]

end Testing
